import Mathlib

/-!
Shallow embedding of the Lsm-KV core (versioned keys, byte codec, memtable,
WAL, file objects) and proofs of its specified properties.

Bytes are modelled as natural numbers below 256 and byte buffers as
`List Nat`; machine integers (u16/u32/u64) are `Nat` with explicit bounds.
-/

namespace LsmKV

/-! ### Big-endian integer codec (Rust `to_be_bytes` / `from_be_bytes`) -/

/-- `toBeBytes n x` is the `n`-byte big-endian encoding of `x`
(Rust `uN::to_be_bytes` for `n ∈ {2, 4, 8}`). -/
def toBeBytes : Nat → Nat → List Nat
  | 0, _ => []
  | m + 1, x => toBeBytes m (x / 256) ++ [x % 256]

/-- Big-endian decoding of a byte list (Rust `uN::from_be_bytes`). -/
def fromBeBytes (bs : List Nat) : Nat :=
  bs.foldl (fun acc b => acc * 256 + b) 0

theorem toBeBytes_length (n x : Nat) : (toBeBytes n x).length = n := by
  induction n generalizing x with
  | zero => rfl
  | succ m ih => simp [toBeBytes, ih]

theorem fromBeBytes_foldl (bs : List Nat) (acc : Nat) :
    bs.foldl (fun a b => a * 256 + b) acc =
      acc * 256 ^ bs.length + fromBeBytes bs := by
  induction bs generalizing acc with
  | nil => simp [fromBeBytes]
  | cons b bs ih =>
    show bs.foldl _ (acc * 256 + b) = _
    rw [ih (acc * 256 + b)]
    have hb : fromBeBytes (b :: bs) = b * 256 ^ bs.length + fromBeBytes bs := by
      show bs.foldl _ (0 * 256 + b) = _
      rw [ih (0 * 256 + b)]; ring
    rw [hb, List.length_cons]; ring

theorem fromBeBytes_toBeBytes {n x : Nat} (h : x < 256 ^ n) :
    fromBeBytes (toBeBytes n x) = x := by
  induction n generalizing x with
  | zero =>
    interval_cases x
    rfl
  | succ m ih =>
    have hdiv : x / 256 < 256 ^ m := by
      rw [Nat.div_lt_iff_lt_mul (by norm_num)]
      calc x < 256 ^ (m + 1) := h
        _ = 256 ^ m * 256 := by ring
    simp only [toBeBytes, fromBeBytes, List.foldl_append, List.foldl_cons,
      List.foldl_nil]
    have := fromBeBytes_foldl (toBeBytes m (x / 256)) 0
    simp only [Nat.zero_mul, Nat.zero_add] at this
    rw [show (List.foldl (fun a b => a * 256 + b) 0 (toBeBytes m (x / 256)))
        = fromBeBytes (toBeBytes m (x / 256)) from rfl, ih hdiv]
    omega

theorem toBeBytes_lt (n x : Nat) : ∀ b ∈ toBeBytes n x, b < 256 := by
  induction n generalizing x with
  | zero => intro b hb; simp [toBeBytes] at hb
  | succ m ih =>
    intro b hb
    simp only [toBeBytes, List.mem_append, List.mem_singleton] at hb
    rcases hb with hb | hb
    · exact ih _ b hb
    · subst hb; exact Nat.mod_lt _ (by norm_num)

/-! ### `ByteUtil for Vec<u8>` (src/src/byte.rs)

`put_uN` appends the big-endian bytes of `val` to the end of the vector;
`get_uN` checks the length, then pops `N` bytes from the END of the vector
(filling the decode array from index `N-1` down to `0`), so it reads the
last `N` bytes in their stored order and removes them.  Mutation of the
vector is modelled by returning the new vector alongside the result. -/

def put_u16 (v : List Nat) (val : Nat) : List Nat := v ++ toBeBytes 2 val

def put_u32 (v : List Nat) (val : Nat) : List Nat := v ++ toBeBytes 4 val

def put_u64 (v : List Nat) (val : Nat) : List Nat := v ++ toBeBytes 8 val

def get_u16 (v : List Nat) : Option Nat × List Nat :=
  if v.length < 2 then (none, v)
  else (some (fromBeBytes (v.drop (v.length - 2))), v.take (v.length - 2))

def get_u32 (v : List Nat) : Option Nat × List Nat :=
  if v.length < 4 then (none, v)
  else (some (fromBeBytes (v.drop (v.length - 4))), v.take (v.length - 4))

def get_u64 (v : List Nat) : Option Nat × List Nat :=
  if v.length < 8 then (none, v)
  else (some (fromBeBytes (v.drop (v.length - 8))), v.take (v.length - 8))

/-! ### Versioned keys (src/src/key.rs)

`Key<T>` is a (payload, version) pair; borrowed (`KeySlice`) and owned
(`KeyBytes`) payloads hold the same byte content, so both are modelled by
a single structure over `List Nat` (the `to_key_bytes` conversion copies
the payload bytes and keeps the version). -/

structure KeyB where
  payload : List Nat
  version : Nat
deriving DecidableEq

/-- Rust lexicographic `cmp` on byte slices (`<[u8] as Ord>::cmp`). -/
def bytesCmp : List Nat → List Nat → Ordering
  | [], [] => Ordering.eq
  | [], _ :: _ => Ordering.lt
  | _ :: _, [] => Ordering.gt
  | a :: as, b :: bs =>
    match compare a b with
    | Ordering.lt => Ordering.lt
    | Ordering.eq => bytesCmp as bs
    | Ordering.gt => Ordering.gt

/-- `impl Ord for Key`: `(self.0.as_ref(), Reverse(self.1)).cmp(...)` —
payload bytes first, ties broken by REVERSED version comparison. -/
def keyCmp (a b : KeyB) : Ordering :=
  match bytesCmp a.payload b.payload with
  | Ordering.lt => Ordering.lt
  | Ordering.eq => compare b.version a.version
  | Ordering.gt => Ordering.gt

/-- `Key::raw_len`: payload length plus `size_of::<u64>()`. -/
def raw_len (k : KeyB) : Nat := k.payload.length + 8

def keyLT (a b : KeyB) : Prop := keyCmp a b = Ordering.lt

theorem natCompare_swap (a b : Nat) : compare b a = (compare a b).swap := by
  rcases Nat.lt_trichotomy a b with h | h | h
  · rw [Nat.compare_eq_lt.mpr h, Nat.compare_eq_gt.mpr h]; rfl
  · subst h; rw [Nat.compare_eq_eq.mpr rfl]; rfl
  · rw [Nat.compare_eq_gt.mpr h, Nat.compare_eq_lt.mpr h]; rfl

theorem bytesCmp_eq_iff : ∀ {as bs : List Nat},
    bytesCmp as bs = Ordering.eq ↔ as = bs := by
  intro as
  induction as with
  | nil => intro bs; cases bs <;> simp [bytesCmp]
  | cons a as ih =>
    intro bs
    cases bs with
    | nil => simp [bytesCmp]
    | cons b bs =>
      rcases h : compare a b with h' | h' | h'
      · simp only [bytesCmp, h, List.cons.injEq]
        constructor
        · intro hc; exact absurd hc (by simp)
        · rintro ⟨rfl, rfl⟩; rw [Nat.compare_eq_eq.mpr rfl] at h; cases h
      · have hab : a = b := Nat.compare_eq_eq.mp h
        subst hab
        simp only [bytesCmp, h, List.cons.injEq, true_and]
        exact ih
      · simp only [bytesCmp, h, List.cons.injEq]
        constructor
        · intro hc; exact absurd hc (by simp)
        · rintro ⟨rfl, rfl⟩; rw [Nat.compare_eq_eq.mpr rfl] at h; cases h

theorem bytesCmp_swap : ∀ (as bs : List Nat),
    bytesCmp bs as = (bytesCmp as bs).swap := by
  intro as
  induction as with
  | nil => intro bs; cases bs <;> rfl
  | cons a as ih =>
    intro bs
    cases bs with
    | nil => rfl
    | cons b bs =>
      rcases h : compare a b with h' | h' | h'
      · have h2 : compare b a = Ordering.gt := by rw [natCompare_swap, h]; rfl
        simp [bytesCmp, h, h2, Ordering.swap]
      · have h2 : compare b a = Ordering.eq := by rw [natCompare_swap, h]; rfl
        simp only [bytesCmp, h, h2]
        exact ih bs
      · have h2 : compare b a = Ordering.lt := by rw [natCompare_swap, h]; rfl
        simp [bytesCmp, h, h2, Ordering.swap]

theorem bytesCmp_trans : ∀ {as bs cs : List Nat},
    bytesCmp as bs = Ordering.lt → bytesCmp bs cs = Ordering.lt →
    bytesCmp as cs = Ordering.lt := by
  intro as
  induction as with
  | nil =>
    intro bs cs h1 h2
    cases bs with
    | nil => cases h1
    | cons b bs =>
      cases cs with
      | nil => cases h2
      | cons c cs => rfl
  | cons a as ih =>
    intro bs cs h1 h2
    cases bs with
    | nil => cases h1
    | cons b bs =>
      cases cs with
      | nil => cases h2
      | cons c cs =>
        rcases hab : compare a b with hab' | hab' | hab' <;>
          simp only [bytesCmp, hab] at h1
        · have hab2 : a < b := Nat.compare_eq_lt.mp hab
          rcases hbc : compare b c with hbc' | hbc' | hbc' <;>
            simp only [bytesCmp, hbc] at h2
          · have hac : a < c := lt_trans hab2 (Nat.compare_eq_lt.mp hbc)
            simp [bytesCmp, Nat.compare_eq_lt.mpr hac]
          · have : b = c := Nat.compare_eq_eq.mp hbc
            subst this
            simp [bytesCmp, hab]
          · simp at h2
        · have : a = b := Nat.compare_eq_eq.mp hab
          subst this
          rcases hbc : compare a c with hbc' | hbc' | hbc' <;>
            simp only [bytesCmp, hbc] at h2 ⊢
          · exact ih h1 h2
          · simp at h2
        · simp at h1

theorem bytesCmp_lex_iff : ∀ {as bs : List Nat},
    bytesCmp as bs = Ordering.lt ↔ List.Lex (· < ·) as bs := by
  intro as
  induction as with
  | nil =>
    intro bs
    cases bs with
    | nil =>
      constructor
      · intro h; cases h
      · intro h; cases h
    | cons b bs =>
      constructor
      · intro _; exact List.Lex.nil
      · intro _; rfl
  | cons a as ih =>
    intro bs
    cases bs with
    | nil =>
      constructor
      · intro h; cases h
      · intro h; cases h
    | cons b bs =>
      rcases hab : compare a b with hab' | hab' | hab'
      · constructor
        · intro _; exact List.Lex.rel (Nat.compare_eq_lt.mp hab)
        · intro _; simp [bytesCmp, hab]
      · have : a = b := Nat.compare_eq_eq.mp hab
        subst this
        simp only [bytesCmp, hab]
        rw [ih]
        constructor
        · intro h; exact List.Lex.cons h
        · intro h
          cases h with
          | cons h => exact h
          | rel h => exact absurd h (lt_irrefl a)
      · constructor
        · intro h; simp only [bytesCmp, hab] at h; simp at h
        · intro h
          cases h with
          | cons h =>
            rw [Nat.compare_eq_eq.mpr rfl] at hab; cases hab
          | rel h =>
            have := Nat.compare_eq_gt.mp hab
            omega

theorem keyCmp_eq_iff {a b : KeyB} : keyCmp a b = Ordering.eq ↔ a = b := by
  obtain ⟨pa, va⟩ := a
  obtain ⟨pb, vb⟩ := b
  rcases h : bytesCmp pa pb with h' | h' | h'
  · simp only [keyCmp, h]
    constructor
    · intro hc; exact absurd hc (by simp)
    · rintro hc
      cases hc
      rw [bytesCmp_eq_iff.mpr rfl] at h; cases h
  · have : pa = pb := bytesCmp_eq_iff.mp h
    subst this
    simp only [keyCmp, h, KeyB.mk.injEq, true_and]
    constructor
    · intro hc; exact (Nat.compare_eq_eq.mp hc).symm
    · rintro rfl; exact Nat.compare_eq_eq.mpr rfl
  · simp only [keyCmp, h]
    constructor
    · intro hc; exact absurd hc (by simp)
    · rintro hc
      cases hc
      rw [bytesCmp_eq_iff.mpr rfl] at h; cases h

theorem keyCmp_swap (a b : KeyB) : keyCmp b a = (keyCmp a b).swap := by
  rcases h : bytesCmp a.payload b.payload with h' | h' | h'
  · have h2 : bytesCmp b.payload a.payload = Ordering.gt := by
      rw [bytesCmp_swap, h]; rfl
    simp [keyCmp, h, h2, Ordering.swap]
  · have h2 : bytesCmp b.payload a.payload = Ordering.eq := by
      rw [bytesCmp_swap, h]; rfl
    simp only [keyCmp, h, h2]
    exact natCompare_swap b.version a.version
  · have h2 : bytesCmp b.payload a.payload = Ordering.lt := by
      rw [bytesCmp_swap, h]; rfl
    simp [keyCmp, h, h2, Ordering.swap]

theorem keyCmp_trans {a b c : KeyB} (h1 : keyLT a b) (h2 : keyLT b c) :
    keyLT a c := by
  unfold keyLT at h1 h2 ⊢
  rcases hab : bytesCmp a.payload b.payload with h' | h' | h' <;>
    simp only [keyCmp, hab] at h1
  · rcases hbc : bytesCmp b.payload c.payload with h'' | h'' | h'' <;>
      simp only [keyCmp, hbc] at h2
    · simp [keyCmp, bytesCmp_trans hab hbc]
    · have hcc : b.payload = c.payload := bytesCmp_eq_iff.mp hbc
      have hac : bytesCmp a.payload c.payload = Ordering.lt := by
        rw [← hcc]; exact hab
      simp [keyCmp, hac]
    · simp at h2
  · have hpp : a.payload = b.payload := bytesCmp_eq_iff.mp hab
    rcases hbc : bytesCmp b.payload c.payload with h'' | h'' | h'' <;>
      simp only [keyCmp, hbc] at h2
    · have hac : bytesCmp a.payload c.payload = Ordering.lt := by
        rw [hpp]; exact hbc
      simp [keyCmp, hac]
    · have h1' := Nat.compare_eq_lt.mp h1
      have h2' := Nat.compare_eq_lt.mp h2
      have hac : bytesCmp a.payload c.payload = Ordering.eq := by
        rw [hpp]; exact hbc
      simp only [keyCmp, hac]
      exact Nat.compare_eq_lt.mpr (lt_trans h2' h1')
    · simp at h2
  · simp at h1


/-! ### Bytes ownership (src/src/byte.rs)

`Bytes` is a raw (ptr, len, cap) triple.  `cap != 0` marks an owned heap
allocation; `Drop` deallocates `ptr` iff `cap != 0`; `Clone` copies
`ptr`/`len` and sets `cap` to 0 (comment in the source: "Set the capacity
to zero to prevent double free").  The heap is modelled explicitly: `live`
is the set of currently valid allocation ids, `freed` records each
deallocation event. -/

structure BytesR where
  ptr : Nat
  len : Nat
  cap : Nat
deriving DecidableEq

structure Heap where
  live : List Nat
  freed : List Nat
deriving DecidableEq

/-- `impl Clone for Bytes`: copy `ptr` and `len`, set `cap` to 0. -/
def BytesR.clone (b : BytesR) : BytesR := ⟨b.ptr, b.len, 0⟩

/-- `impl Drop for Bytes`: if `cap != 0`, `dealloc(ptr)`. -/
def dropBytes (h : Heap) (b : BytesR) : Heap :=
  if b.cap ≠ 0 then { live := h.live.erase b.ptr, freed := b.ptr :: h.freed }
  else h

/-- A `Bytes` value can still read its backing allocation safely only while
that allocation is live. -/
def canRead (h : Heap) (b : BytesR) : Prop := b.ptr ∈ h.live

/-! ### MemTable (src/src/mem_table.rs)

The `SkipMap<KeyBytes, Bytes>` is modelled as a list of (key, value)
entries kept strictly sorted by `keyCmp`; `insert` replaces the entry
whose key compares equal, `get` returns the value of the entry whose key
compares equal.  The `Wal` handle is a buffered append-only log of bytes. -/

abbrev Value := List Nat

structure WalM where
  log : List Nat
deriving DecidableEq

def mapInsert : List (KeyB × Value) → KeyB → Value → List (KeyB × Value)
  | [], k, v => [(k, v)]
  | (k2, v2) :: rest, k, v =>
    match keyCmp k k2 with
    | Ordering.lt => (k, v) :: (k2, v2) :: rest
    | Ordering.eq => (k, v) :: rest
    | Ordering.gt => (k2, v2) :: mapInsert rest k v

def mapGet : List (KeyB × Value) → KeyB → Option Value
  | [], _ => none
  | (k2, v2) :: rest, k =>
    match keyCmp k k2 with
    | Ordering.lt => mapGet rest k
    | Ordering.eq => some v2
    | Ordering.gt => mapGet rest k

structure MemTableM where
  map : List (KeyB × Value)
  wal : Option WalM
  id : Nat
  approximate_size : Nat
deriving DecidableEq

/-- `MemTable::new`: empty map, no Wal, zero size counter. -/
def MemTableM.new (id : Nat) : MemTableM := ⟨[], none, id, 0⟩

/-- `MemTable::get`: builds a `KeyBytes` borrowing the looked-up slice (same
payload bytes, same version) and does an exact lookup in the map. -/
def MemTableM.get (mt : MemTableM) (k : KeyB) : Option Value := mapGet mt.map k

/-- `MemTable::put_batch` (src/src/mem_table.rs:62-75): for each entry,
accumulates `key.raw_len() + value.len()` into `data_size` and inserts the
owned key into the map; then `fetch_add`s the size.  The `if let Some(ref
_wal)` branch is a no-op in the source (`// TODO: add wal support.`), and
the function returns `Ok(())` unconditionally. -/
def MemTableM.put_batch (mt : MemTableM) (data : List (KeyB × Value)) :
    MemTableM :=
  let res := data.foldl
    (fun acc e => (acc.1 + (raw_len e.1 + e.2.length), mapInsert acc.2 e.1 e.2))
    (0, mt.map)
  { mt with map := res.2, approximate_size := mt.approximate_size + res.1 }

/-- `MemTable::put`: a single-entry batch. -/
def MemTableM.put (mt : MemTableM) (k : KeyB) (v : Value) : MemTableM :=
  mt.put_batch [(k, v)]

def MemTableM.is_empty (mt : MemTableM) : Bool := mt.map.isEmpty

/-- Σ over a batch of `raw_len(key) + len(value)`. -/
def batchSize (data : List (KeyB × Value)) : Nat :=
  (data.map (fun e => raw_len e.1 + e.2.length)).sum

/-- A memtable after a sequence of `put_batch` calls, oldest first. -/
def buildMT (id : Nat) (batches : List (List (KeyB × Value))) : MemTableM :=
  batches.foldl (fun mt b => mt.put_batch b) (MemTableM.new id)

def keysSorted (m : List (KeyB × Value)) : Prop :=
  m.Pairwise (fun a b => keyLT a.1 b.1)

/-! ### Wal creation and MemTable::new_with_wal (src/src/wal.rs, mem_table.rs)

The file system is an association list from path ids to file contents.
`Wal::new` opens with `create_new(true)`, which atomically fails with
`AlreadyExists` when the path is occupied and otherwise creates a new
empty file. -/

inductive IoError
  | alreadyExists
  | unexpectedEof
deriving DecidableEq

abbrev FS := List (Nat × List Nat)

/-- `Wal::new`. -/
def walNew (fs : FS) (path : Nat) : Except IoError WalM × FS :=
  match fs.lookup path with
  | some _ => (Except.error IoError.alreadyExists, fs)
  | none => (Except.ok ⟨[]⟩, (path, []) :: fs)

/-- `MemTable::new_with_wal`: fresh empty map and size, `Wal::new(path)?`. -/
def new_with_wal (fs : FS) (id path : Nat) : Except IoError MemTableM × FS :=
  match walNew fs path with
  | (Except.error e, fs2) => (Except.error e, fs2)
  | (Except.ok w, fs2) => (Except.ok ⟨[], some w, id, 0⟩, fs2)

/-! ### FileObject (src/src/table.rs) -/

structure FileObject where
  data : List Nat
deriving DecidableEq

/-- `std::os::unix::fs::FileExt::read_exact_at` on a buffer of length
`bufLen`: succeeds immediately when the buffer is empty; otherwise fills
the whole buffer from `offset` or fails with `UnexpectedEof` when the file
ends first. -/
def read_exact_at (f : FileObject) (bufLen offset : Nat) :
    Except IoError (List Nat) :=
  if bufLen = 0 then Except.ok []
  else if offset + bufLen ≤ f.data.length then
    Except.ok ((f.data.drop offset).take bufLen)
  else Except.error IoError.unexpectedEof

/-- `FileObject::read`: `vec![0; len]` then `read_exact_at(&mut data, offset)`. -/
def FileObject.read (f : FileObject) (offset len : Nat) :
    Except IoError (List Nat) :=
  read_exact_at f len offset

/-! ### Wal wire format and recovery (src/src/wal.rs §4.4/§6)

`Wal::put_batch` and `Wal::recover` are absent from the compiled sources
(only commented-out drafts remain), so the wire format and recovery are
modelled from the spec. -/

/-- One logged (key bytes, version, value bytes) triple. -/
structure Entry where
  key : List Nat
  ts : Nat
  value : List Nat
deriving DecidableEq

def crc32round (c : Nat) : Nat :=
  if c % 2 = 1 then Nat.xor (c / 2) 0xEDB88320 else c / 2

def crc32iter : Nat → Nat → Nat
  | 0, c => c
  | n + 1, c => crc32iter n (crc32round c)

/-- CRC-32 (IEEE, reflected polynomial 0xEDB88320), the checksum computed
by the `crc32fast` crate named in §6. -/
def crc32 (bs : List Nat) : Nat :=
  Nat.xor (bs.foldl (fun c b => crc32iter 8 (Nat.xor c b)) 0xFFFFFFFF)
    0xFFFFFFFF

/-- Modelled from the spec: §6 body element
`u16 key_len, key_bytes, u64 version, u16 value_len, value_bytes`. -/
def encodeEntry (e : Entry) : List Nat :=
  toBeBytes 2 e.key.length ++ e.key ++ toBeBytes 8 e.ts ++
    toBeBytes 2 e.value.length ++ e.value

/-- Modelled from the spec: §6 `body := { ... }*`. -/
def encodeBody (es : List Entry) : List Nat := (es.map encodeEntry).flatten

/-- Modelled from the spec: §6
`batch := u32 batch_len, body, u32 checksum` with `checksum := CRC32 over
body bytes`. -/
def encodeBatch (es : List Entry) : List Nat :=
  toBeBytes 4 (encodeBody es).length ++ encodeBody es ++
    toBeBytes 4 (crc32 (encodeBody es))

/-- A Wal file content: batches appended in order. -/
def encodeLog (bs : List (List Entry)) : List Nat := (bs.map encodeBatch).flatten

/-- Read exactly `n` bytes from the front, or fail. -/
def takeN (n : Nat) (bs : List Nat) : Option (List Nat × List Nat) :=
  if n ≤ bs.length then some (bs.take n, bs.drop n) else none

/-- Body parser (fuel-indexed): repeatedly reads
`u16 key_len, key, u64 version, u16 value_len, value` until the body is
exhausted; fails if the body ends mid-element. -/
def parseBodyF : Nat → List Nat → Option (List Entry)
  | 0, bs => if bs.isEmpty then some [] else none
  | fuel + 1, bs =>
    if bs.isEmpty then some []
    else
      match takeN 2 bs with
      | none => none
      | some (klenB, r1) =>
        match takeN (fromBeBytes klenB) r1 with
        | none => none
        | some (key, r2) =>
          match takeN 8 r2 with
          | none => none
          | some (tsB, r3) =>
            match takeN 2 r3 with
            | none => none
            | some (vlenB, r4) =>
              match takeN (fromBeBytes vlenB) r4 with
              | none => none
              | some (value, r5) =>
                match parseBodyF fuel r5 with
                | none => none
                | some es =>
                  some ({ key := key, ts := fromBeBytes tsB,
                          value := value } :: es)

def parseBody (bs : List Nat) : Option (List Entry) := parseBodyF bs.length bs

/-- Modelled from the spec: `Wal::recover` (§4.4): reads the file as a
sequence of batches; for each, reads the `u32` length, the body and the
trailing `u32` checksum, verifies the checksum against the body, and stops
at the first batch that is truncated or fails its checksum (or whose body
does not parse), discarding that batch and everything after it;
corruption is not an error — the triples recovered so far are returned. -/
def recoverF : Nat → List Nat → List Entry
  | 0, _ => []
  | fuel + 1, bs =>
    match takeN 4 bs with
    | none => []
    | some (lenB, r1) =>
      match takeN (fromBeBytes lenB) r1 with
      | none => []
      | some (body, r2) =>
        match takeN 4 r2 with
        | none => []
        | some (chkB, r3) =>
          if fromBeBytes chkB = crc32 body then
            match parseBody body with
            | none => []
            | some es => es ++ recoverF fuel r3
          else []

def recover (bs : List Nat) : List Entry := recoverF bs.length bs

/-- An entry representable in the §6 wire format: u16-sized key and value
made of bytes, u64 version. -/
def wfEntry (e : Entry) : Prop :=
  e.key.length < 2 ^ 16 ∧ e.ts < 2 ^ 64 ∧ e.value.length < 2 ^ 16 ∧
    (∀ b ∈ e.key, b < 256) ∧ (∀ b ∈ e.value, b < 256)

/-- A batch representable in the §6 wire format. -/
def wfBatch (es : List Entry) : Prop :=
  (∀ e ∈ es, wfEntry e) ∧ (encodeBody es).length < 2 ^ 32

instance : DecidablePred wfEntry := fun e => by
  unfold wfEntry
  infer_instance

instance : DecidablePred wfBatch := fun es => by
  unfold wfBatch
  infer_instance

theorem takeN_exact {l : List Nat} (r : List Nat) {n : Nat}
    (h : l.length = n) : takeN n (l ++ r) = some (l, r) := by
  subst h
  simp only [takeN, List.length_append, Nat.le_add_right, if_pos,
    List.take_left, List.drop_left]

theorem takeN_none {n : Nat} {bs : List Nat} (h : bs.length < n) :
    takeN n bs = none := by
  unfold takeN
  rw [if_neg (by omega)]

theorem takeN_some {n : Nat} {bs x r : List Nat}
    (h : takeN n bs = some (x, r)) :
    n ≤ bs.length ∧ x = bs.take n ∧ r = bs.drop n := by
  by_cases hle : n ≤ bs.length
  · simp only [takeN, if_pos hle, Option.some.injEq, Prod.mk.injEq] at h
    exact ⟨hle, h.1.symm, h.2.symm⟩
  · simp [takeN, if_neg hle] at h

theorem encodeEntry_ne_nil (e : Entry) : encodeEntry e ≠ [] := by
  intro h
  have : (encodeEntry e).length = 0 := by rw [h]; rfl
  simp only [encodeEntry, List.length_append, toBeBytes_length] at this
  omega

theorem encodeEntry_length (e : Entry) :
    (encodeEntry e).length = 12 + e.key.length + e.value.length := by
  simp only [encodeEntry, List.length_append, toBeBytes_length]
  omega

/-- Decoding an encoded body recovers its entries. -/
theorem parseBodyF_encode : ∀ (es : List Entry) (fuel : Nat),
    (∀ e ∈ es, wfEntry e) → (encodeBody es).length ≤ fuel →
    parseBodyF fuel (encodeBody es) = some es := by
  intro es
  induction es with
  | nil =>
    intro fuel _ _
    cases fuel <;> simp [parseBodyF, encodeBody]
  | cons e es ih =>
    intro fuel hwf hfuel
    have hene := encodeEntry_ne_nil e
    have hwfe : wfEntry e := hwf e (List.mem_cons_self e es)
    have hbody : encodeBody (e :: es) = encodeEntry e ++ encodeBody es := by
      simp [encodeBody]
    have hlen : 12 + e.key.length + e.value.length + (encodeBody es).length
        = (encodeBody (e :: es)).length := by
      rw [hbody, List.length_append, encodeEntry_length]
    cases fuel with
    | zero => omega
    | succ f =>
      rw [hbody]
      have hassoc : encodeEntry e ++ encodeBody es =
          toBeBytes 2 e.key.length ++ (e.key ++ (toBeBytes 8 e.ts ++
            (toBeBytes 2 e.value.length ++ (e.value ++ encodeBody es)))) := by
        simp [encodeEntry, List.append_assoc]
      have hnonempty : ¬((encodeEntry e ++ encodeBody es).isEmpty = true) := by
        cases hx : encodeEntry e with
        | nil => exact absurd hx hene
        | cons a l => simp [hx]
      have t1 : takeN 2 (encodeEntry e ++ encodeBody es) =
          some (toBeBytes 2 e.key.length, e.key ++ (toBeBytes 8 e.ts ++
            (toBeBytes 2 e.value.length ++ (e.value ++ encodeBody es)))) := by
        rw [hassoc]; exact takeN_exact _ (toBeBytes_length 2 e.key.length)
      have d1 : fromBeBytes (toBeBytes 2 e.key.length) = e.key.length := by
        refine fromBeBytes_toBeBytes ?_
        have h1 := hwfe.1
        norm_num at h1 ⊢
        exact h1
      have t2 : takeN e.key.length (e.key ++ (toBeBytes 8 e.ts ++
          (toBeBytes 2 e.value.length ++ (e.value ++ encodeBody es)))) =
          some (e.key, toBeBytes 8 e.ts ++
            (toBeBytes 2 e.value.length ++ (e.value ++ encodeBody es))) :=
        takeN_exact _ rfl
      have t3 : takeN 8 (toBeBytes 8 e.ts ++
          (toBeBytes 2 e.value.length ++ (e.value ++ encodeBody es))) =
          some (toBeBytes 8 e.ts,
            toBeBytes 2 e.value.length ++ (e.value ++ encodeBody es)) :=
        takeN_exact _ (toBeBytes_length 8 e.ts)
      have d2 : fromBeBytes (toBeBytes 8 e.ts) = e.ts := by
        refine fromBeBytes_toBeBytes ?_
        have h1 := hwfe.2.1
        norm_num at h1 ⊢
        exact h1
      have t4 : takeN 2 (toBeBytes 2 e.value.length ++
          (e.value ++ encodeBody es)) =
          some (toBeBytes 2 e.value.length, e.value ++ encodeBody es) :=
        takeN_exact _ (toBeBytes_length 2 e.value.length)
      have d3 : fromBeBytes (toBeBytes 2 e.value.length) = e.value.length := by
        refine fromBeBytes_toBeBytes ?_
        have h1 := hwfe.2.2.1
        norm_num at h1 ⊢
        exact h1
      have t5 : takeN e.value.length (e.value ++ encodeBody es) =
          some (e.value, encodeBody es) := takeN_exact _ rfl
      have hrec : parseBodyF f (encodeBody es) = some es :=
        ih f (fun x hx => hwf x (List.mem_cons_of_mem e hx)) (by omega)
      rw [parseBodyF, if_neg hnonempty]
      simp only [t1, d1, t2, t3, t4, d2, d3, t5, hrec]

theorem parseBody_encode (es : List Entry) (hwf : ∀ e ∈ es, wfEntry e) :
    parseBody (encodeBody es) = some es :=
  parseBodyF_encode es (encodeBody es).length hwf (Nat.le_refl _)

theorem recoverF_nil (fuel : Nat) : recoverF fuel [] = [] := by
  cases fuel with
  | zero => rfl
  | succ f =>
    rw [recoverF, takeN_none (by simp)]

theorem recoverF_fuel : ∀ (f1 f2 : Nat) (bs : List Nat),
    bs.length ≤ f1 → bs.length ≤ f2 → recoverF f1 bs = recoverF f2 bs := by
  intro f1
  induction f1 with
  | zero =>
    intro f2 bs h1 _
    have : bs = [] := List.length_eq_zero.mp (by omega)
    subst this
    rw [recoverF_nil, recoverF_nil]
  | succ g1 ih =>
    intro f2 bs h1 h2
    cases f2 with
    | zero =>
      have : bs = [] := List.length_eq_zero.mp (by omega)
      subst this
      rw [recoverF_nil, recoverF_nil]
    | succ g2 =>
      rcases h4 : takeN 4 bs with _ | ⟨lenB, r1⟩
      · rw [recoverF, recoverF]
        simp only [h4]
      · obtain ⟨hle4, -, hr1⟩ := takeN_some h4
        rcases hb : takeN (fromBeBytes lenB) r1 with _ | ⟨body, r2⟩
        · rw [recoverF, recoverF]
          simp only [h4, hb]
        · obtain ⟨hleb, -, hr2⟩ := takeN_some hb
          rcases hc : takeN 4 r2 with _ | ⟨chkB, r3⟩
          · rw [recoverF, recoverF]
            simp only [h4, hb, hc]
          · obtain ⟨hlec, -, hr3⟩ := takeN_some hc
            have hr3len : r3.length + 8 ≤ bs.length := by
              subst hr3 hr2 hr1
              simp only [List.length_drop] at hlec hleb ⊢
              omega
            rw [recoverF, recoverF]
            simp only [h4, hb, hc]
            by_cases hchk : fromBeBytes chkB = crc32 body
            · rw [if_pos hchk, if_pos hchk]
              rcases hp : parseBody body with _ | es
              · simp only [hp]
              · simp only [hp]
                rw [ih g2 r3 (by omega) (by omega)]
            · rw [if_neg hchk, if_neg hchk]

theorem encodeBatch_length (B : List Entry) :
    (encodeBatch B).length = 8 + (encodeBody B).length := by
  simp only [encodeBatch, List.length_append, toBeBytes_length]
  omega

theorem encodeBody_lt (B : List Entry) (hwf : wfBatch B) :
    (encodeBody B).length < 256 ^ 4 := by
  have h := hwf.2
  norm_num at h ⊢
  exact h

theorem crc32round_lt {c : Nat} (h : c < 2 ^ 32) : crc32round c < 2 ^ 32 := by
  unfold crc32round
  split
  · exact Nat.xor_lt_two_pow (by omega) (by norm_num)
  · omega

theorem crc32iter_lt : ∀ (n : Nat) {c : Nat}, c < 2 ^ 32 →
    crc32iter n c < 2 ^ 32 := by
  intro n
  induction n with
  | zero => intro c h; exact h
  | succ m ih => intro c h; exact ih (crc32round_lt h)

theorem crc32_lt (bs : List Nat) (h : ∀ b ∈ bs, b < 256) :
    crc32 bs < 2 ^ 32 := by
  unfold crc32
  refine Nat.xor_lt_two_pow ?_ (by norm_num)
  have main : ∀ (l : List Nat) (c : Nat), c < 2 ^ 32 → (∀ b ∈ l, b < 256) →
      l.foldl (fun c b => crc32iter 8 (Nat.xor c b)) c < 2 ^ 32 := by
    intro l
    induction l with
    | nil => intro c hc _; exact hc
    | cons b l ih =>
      intro c hc hl
      simp only [List.foldl_cons]
      refine ih _ ?_ (fun x hx => hl x (List.mem_cons_of_mem b hx))
      refine crc32iter_lt 8 ?_
      refine Nat.xor_lt_two_pow hc ?_
      have := hl b (List.mem_cons_self b l)
      omega
  exact main bs 0xFFFFFFFF (by norm_num) h

theorem encodeBody_bytes_lt (B : List Entry) (hwf : ∀ e ∈ B, wfEntry e) :
    ∀ b ∈ encodeBody B, b < 256 := by
  intro b hb
  simp only [encodeBody, List.mem_flatten, List.mem_map] at hb
  obtain ⟨l, ⟨e, he, rfl⟩, hbl⟩ := hb
  have hwfe := hwf e he
  simp only [encodeEntry, List.mem_append] at hbl
  rcases hbl with ((((hx | hx) | hx) | hx) | hx)
  · exact toBeBytes_lt 2 e.key.length b hx
  · exact hwfe.2.2.2.1 b hx
  · exact toBeBytes_lt 8 e.ts b hx
  · exact toBeBytes_lt 2 e.value.length b hx
  · exact hwfe.2.2.2.2 b hx

theorem recoverF_batch (B : List Entry) (rest : List Nat) (f : Nat)
    (hwf : wfBatch B) :
    recoverF (f + 1) (encodeBatch B ++ rest) = B ++ recoverF f rest := by
  have hassoc : encodeBatch B ++ rest =
      toBeBytes 4 (encodeBody B).length ++ (encodeBody B ++
        (toBeBytes 4 (crc32 (encodeBody B)) ++ rest)) := by
    simp [encodeBatch, List.append_assoc]
  have t1 : takeN 4 (encodeBatch B ++ rest) =
      some (toBeBytes 4 (encodeBody B).length,
        encodeBody B ++ (toBeBytes 4 (crc32 (encodeBody B)) ++ rest)) := by
    rw [hassoc]; exact takeN_exact _ (toBeBytes_length 4 _)
  have d1 : fromBeBytes (toBeBytes 4 (encodeBody B).length) =
      (encodeBody B).length := fromBeBytes_toBeBytes (encodeBody_lt B hwf)
  have t2 : takeN (encodeBody B).length (encodeBody B ++
      (toBeBytes 4 (crc32 (encodeBody B)) ++ rest)) =
      some (encodeBody B, toBeBytes 4 (crc32 (encodeBody B)) ++ rest) :=
    takeN_exact _ rfl
  have t3 : takeN 4 (toBeBytes 4 (crc32 (encodeBody B)) ++ rest) =
      some (toBeBytes 4 (crc32 (encodeBody B)), rest) :=
    takeN_exact _ (toBeBytes_length 4 _)
  have hcrc : crc32 (encodeBody B) < 256 ^ 4 := by
    have h1 : crc32 (encodeBody B) < 2 ^ 32 :=
      crc32_lt _ (encodeBody_bytes_lt B hwf.1)
    norm_num at h1 ⊢
    exact h1
  have d2 : fromBeBytes (toBeBytes 4 (crc32 (encodeBody B))) =
      crc32 (encodeBody B) := fromBeBytes_toBeBytes hcrc
  rw [recoverF]
  simp only [t1, d1, t2, t3, d2, parseBody_encode B hwf.1]
  rw [if_pos trivial]

theorem recover_append (B : List Entry) (rest : List Nat)
    (hwf : wfBatch B) :
    recover (encodeBatch B ++ rest) = B ++ recover rest := by
  have hlen : (encodeBatch B ++ rest).length =
      (7 + (encodeBody B).length + rest.length) + 1 := by
    rw [List.length_append, encodeBatch_length]
    omega
  unfold recover
  rw [hlen, recoverF_batch B rest _ hwf]
  congr 1
  exact recoverF_fuel _ _ rest (by omega) (Nat.le_refl _)

theorem recover_log_append (Bs : List (List Entry)) (tail : List Nat)
    (hwf : ∀ B ∈ Bs, wfBatch B) :
    recover (encodeLog Bs ++ tail) = Bs.flatten ++ recover tail := by
  induction Bs with
  | nil => simp [encodeLog]
  | cons B Bs ih =>
    have h1 : encodeLog (B :: Bs) ++ tail =
        encodeBatch B ++ (encodeLog Bs ++ tail) := by
      simp [encodeLog]
    rw [h1, recover_append B _ (hwf B (List.mem_cons_self B Bs)),
      ih (fun x hx => hwf x (List.mem_cons_of_mem B hx))]
    simp

/-- A batch stored with a wrong trailing checksum is rejected, together
with everything after it. -/
theorem recoverF_corrupt (B : List Entry) (c : Nat) (tail : List Nat)
    (hwf : wfBatch B) (hc : c < 2 ^ 32) (hne : c ≠ crc32 (encodeBody B)) :
    ∀ fuel, recoverF fuel
      (toBeBytes 4 (encodeBody B).length ++ encodeBody B ++
        toBeBytes 4 c ++ tail) = [] := by
  intro fuel
  cases fuel with
  | zero => rfl
  | succ f =>
    have hassoc : toBeBytes 4 (encodeBody B).length ++ encodeBody B ++
        toBeBytes 4 c ++ tail =
        toBeBytes 4 (encodeBody B).length ++ (encodeBody B ++
          (toBeBytes 4 c ++ tail)) := by
      simp [List.append_assoc]
    have t1 : takeN 4 (toBeBytes 4 (encodeBody B).length ++ encodeBody B ++
        toBeBytes 4 c ++ tail) =
        some (toBeBytes 4 (encodeBody B).length,
          encodeBody B ++ (toBeBytes 4 c ++ tail)) := by
      rw [hassoc]; exact takeN_exact _ (toBeBytes_length 4 _)
    have d1 : fromBeBytes (toBeBytes 4 (encodeBody B).length) =
        (encodeBody B).length := fromBeBytes_toBeBytes (encodeBody_lt B hwf)
    have t2 : takeN (encodeBody B).length
        (encodeBody B ++ (toBeBytes 4 c ++ tail)) =
        some (encodeBody B, toBeBytes 4 c ++ tail) := takeN_exact _ rfl
    have t3 : takeN 4 (toBeBytes 4 c ++ tail) =
        some (toBeBytes 4 c, tail) := takeN_exact _ (toBeBytes_length 4 _)
    have d2 : fromBeBytes (toBeBytes 4 c) = c := by
      refine fromBeBytes_toBeBytes ?_
      norm_num at hc ⊢
      exact hc
    rw [recoverF]
    simp only [t1, d1, t2, t3, d2]
    rw [if_neg hne]

/-- A truncated final batch is rejected entirely. -/
theorem recoverF_truncated (B : List Entry) (j : Nat) (hwf : wfBatch B)
    (hj : j < (encodeBatch B).length) :
    ∀ fuel, recoverF fuel ((encodeBatch B).take j) = [] := by
  intro fuel
  cases fuel with
  | zero => rfl
  | succ f =>
    have hlenB : (encodeBatch B).length = 8 + (encodeBody B).length :=
      encodeBatch_length B
    by_cases h4 : j < 4
    · have hlen : ((encodeBatch B).take j).length = j := by
        rw [List.length_take]
        omega
      rw [recoverF, takeN_none (by omega)]
    · have hsplit : (encodeBatch B).take j =
          toBeBytes 4 (encodeBody B).length ++
            ((encodeBody B ++ toBeBytes 4 (crc32 (encodeBody B))).take
              (j - 4)) := by
        have : encodeBatch B = toBeBytes 4 (encodeBody B).length ++
            (encodeBody B ++ toBeBytes 4 (crc32 (encodeBody B))) := by
          simp [encodeBatch, List.append_assoc]
        rw [this, List.take_append_eq_append_take, toBeBytes_length,
          List.take_of_length_le (by rw [toBeBytes_length]; omega)]
      have t1 : takeN 4 ((encodeBatch B).take j) =
          some (toBeBytes 4 (encodeBody B).length,
            (encodeBody B ++ toBeBytes 4 (crc32 (encodeBody B))).take
              (j - 4)) := by
        rw [hsplit]; exact takeN_exact _ (toBeBytes_length 4 _)
      have d1 : fromBeBytes (toBeBytes 4 (encodeBody B).length) =
          (encodeBody B).length := fromBeBytes_toBeBytes (encodeBody_lt B hwf)
      have hremlen :
          ((encodeBody B ++ toBeBytes 4 (crc32 (encodeBody B))).take
            (j - 4)).length = j - 4 := by
        rw [List.length_take, List.length_append, toBeBytes_length]
        omega
      by_cases hb : j - 4 < (encodeBody B).length
      · rw [recoverF]
        simp only [t1, d1]
        rw [takeN_none (by omega)]
      · have hrem : (encodeBody B ++
            toBeBytes 4 (crc32 (encodeBody B))).take (j - 4) =
            encodeBody B ++
              ((toBeBytes 4 (crc32 (encodeBody B))).take
                (j - 4 - (encodeBody B).length)) := by
          rw [List.take_append_eq_append_take,
            List.take_of_length_le (by omega)]
        have t2 : takeN (encodeBody B).length ((encodeBody B ++
            toBeBytes 4 (crc32 (encodeBody B))).take (j - 4)) =
            some (encodeBody B,
              (toBeBytes 4 (crc32 (encodeBody B))).take
                (j - 4 - (encodeBody B).length)) := by
          rw [hrem]; exact takeN_exact _ rfl
        have hlast : ((toBeBytes 4 (crc32 (encodeBody B))).take
            (j - 4 - (encodeBody B).length)).length < 4 := by
          rw [List.length_take, toBeBytes_length]
          omega
        rw [recoverF]
        simp only [t1, d1, t2]
        rw [takeN_none hlast]

theorem keyCmp_refl (k : KeyB) : keyCmp k k = Ordering.eq :=
  keyCmp_eq_iff.mpr rfl

theorem mapGet_insert_self (m : List (KeyB × Value)) (k : KeyB) (v : Value) :
    mapGet (mapInsert m k v) k = some v := by
  induction m with
  | nil => simp [mapInsert, mapGet, keyCmp_refl]
  | cons e rest ih =>
    obtain ⟨k2, v2⟩ := e
    rcases h : keyCmp k k2 with h' | h' | h'
    · simp [mapInsert, mapGet, h, keyCmp_refl]
    · simp [mapInsert, mapGet, h, keyCmp_refl]
    · simp only [mapInsert, h, mapGet]
      exact ih

theorem mapGet_insert_other (m : List (KeyB × Value)) (k k2 : KeyB)
    (v : Value) (hne : k2 ≠ k) :
    mapGet (mapInsert m k v) k2 = mapGet m k2 := by
  have hneq : keyCmp k2 k ≠ Ordering.eq := fun hc => hne (keyCmp_eq_iff.mp hc)
  induction m with
  | nil =>
    simp only [mapInsert, mapGet]
    rcases h : keyCmp k2 k with h' | h' | h'
    · rfl
    · exact absurd h hneq
    · rfl
  | cons e rest ih =>
    obtain ⟨k1, v1⟩ := e
    rcases h : keyCmp k k1 with h' | h' | h'
    · simp only [mapInsert, h, mapGet]
      rcases h2 : keyCmp k2 k with h2' | h2' | h2'
      · rfl
      · exact absurd h2 hneq
      · rfl
    · have : k = k1 := keyCmp_eq_iff.mp h
      subst this
      simp only [mapInsert, h, mapGet]
      rcases h2 : keyCmp k2 k with h2' | h2' | h2'
      · rfl
      · exact absurd h2 hneq
      · rfl
    · simp only [mapInsert, h, mapGet]
      rcases h2 : keyCmp k2 k1 with h2' | h2' | h2' <;> simp only [ih]

theorem mem_mapInsert {m : List (KeyB × Value)} {k : KeyB} {v : Value} :
    ∀ e ∈ mapInsert m k v, e = (k, v) ∨ e ∈ m := by
  induction m with
  | nil => intro e he; simp [mapInsert] at he; exact Or.inl he
  | cons hd rest ih =>
    obtain ⟨k1, v1⟩ := hd
    intro e he
    rcases h : keyCmp k k1 with h' | h' | h' <;>
      simp only [mapInsert, h, List.mem_cons] at he
    · rcases he with rfl | he | he
      · exact Or.inl rfl
      · exact Or.inr (by rw [he]; exact List.mem_cons_self _ _)
      · exact Or.inr (List.mem_cons_of_mem _ he)
    · rcases he with rfl | he
      · exact Or.inl rfl
      · exact Or.inr (List.mem_cons_of_mem _ he)
    · rcases he with rfl | he
      · exact Or.inr (List.mem_cons_self _ _)
      · rcases ih e he with h2 | h2
        · exact Or.inl h2
        · exact Or.inr (List.mem_cons_of_mem _ h2)

theorem keysSorted_insert {m : List (KeyB × Value)} {k : KeyB} {v : Value}
    (hs : keysSorted m) : keysSorted (mapInsert m k v) := by
  induction m with
  | nil => simp [mapInsert, keysSorted]
  | cons hd rest ih =>
    obtain ⟨k1, v1⟩ := hd
    rw [keysSorted, List.pairwise_cons] at hs
    obtain ⟨hall, hrest⟩ := hs
    rcases h : keyCmp k k1 with h' | h' | h'
    · rw [keysSorted]
      simp only [mapInsert, h]
      rw [List.pairwise_cons]
      constructor
      · intro e he
        simp only [List.mem_cons] at he
        rcases he with rfl | he
        · exact h
        · exact keyCmp_trans h (hall e he)
      · rw [List.pairwise_cons]
        exact ⟨hall, hrest⟩
    · have : k = k1 := keyCmp_eq_iff.mp h
      subst this
      rw [keysSorted]
      simp only [mapInsert, h]
      rw [List.pairwise_cons]
      exact ⟨hall, hrest⟩
    · rw [keysSorted]
      simp only [mapInsert, h]
      rw [List.pairwise_cons]
      constructor
      · intro e he
        rcases mem_mapInsert e he with rfl | he2
        · have h2 := keyCmp_swap k k1
          rw [h] at h2
          exact h2
        · exact hall e he2
      · exact ih hrest

theorem keyLT_ne_eq {a b : KeyB} (h : keyLT a b) :
    keyCmp a b ≠ Ordering.eq := by
  rw [keyLT] at h
  rw [h]
  simp

/-- After inserting `k` into a sorted map, exactly one entry has a key
comparing equal to `k`. -/
theorem countP_mapInsert (m : List (KeyB × Value)) (k : KeyB) (v : Value)
    (hs : keysSorted m) :
    (mapInsert m k v).countP
      (fun e => decide (keyCmp k e.1 = Ordering.eq)) = 1 := by
  have hzero : ∀ (l : List (KeyB × Value)),
      (∀ e ∈ l, keyLT k e.1) →
      l.countP (fun e => decide (keyCmp k e.1 = Ordering.eq)) = 0 := by
    intro l hl
    rw [List.countP_eq_zero]
    intro e he
    simp only [decide_eq_true_eq]
    exact keyLT_ne_eq (hl e he)
  induction m with
  | nil => simp [mapInsert, List.countP_cons, keyCmp_refl]
  | cons hd rest ih =>
    obtain ⟨k1, v1⟩ := hd
    rw [keysSorted, List.pairwise_cons] at hs
    obtain ⟨hall, hrest⟩ := hs
    rcases h : keyCmp k k1 with h' | h' | h'
    · simp only [mapInsert, h]
      rw [List.countP_cons, List.countP_cons,
        hzero rest (fun e he => keyCmp_trans h (hall e he))]
      simp [keyCmp_refl, h]
    · have : k = k1 := keyCmp_eq_iff.mp h
      subst this
      simp only [mapInsert, h]
      rw [List.countP_cons, hzero rest hall]
      simp [keyCmp_refl]
    · simp only [mapInsert, h]
      rw [List.countP_cons, ih hrest]
      simp [h]

theorem put_batch_foldl (data : List (KeyB × Value)) :
    ∀ (s : Nat) (m : List (KeyB × Value)),
    data.foldl (fun acc e =>
        (acc.1 + (raw_len e.1 + e.2.length), mapInsert acc.2 e.1 e.2)) (s, m)
      = (s + batchSize data,
         data.foldl (fun m e => mapInsert m e.1 e.2) m) := by
  induction data with
  | nil => intro s m; simp [batchSize]
  | cons e data ih =>
    intro s m
    simp only [List.foldl_cons]
    rw [ih]
    have : batchSize (e :: data) = (raw_len e.1 + e.2.length) +
        batchSize data := by
      simp [batchSize]
    rw [this, Nat.add_assoc]

theorem put_batch_map (mt : MemTableM) (data : List (KeyB × Value)) :
    (mt.put_batch data).map =
      data.foldl (fun m e => mapInsert m e.1 e.2) mt.map := by
  unfold MemTableM.put_batch
  rw [put_batch_foldl]

theorem put_batch_size (mt : MemTableM) (data : List (KeyB × Value)) :
    (mt.put_batch data).approximate_size =
      mt.approximate_size + batchSize data := by
  unfold MemTableM.put_batch
  rw [put_batch_foldl]
  simp

theorem put_batch_wal (mt : MemTableM) (data : List (KeyB × Value)) :
    (mt.put_batch data).wal = mt.wal := by
  unfold MemTableM.put_batch
  rfl

theorem put_map (mt : MemTableM) (k : KeyB) (v : Value) :
    (mt.put k v).map = mapInsert mt.map k v := by
  unfold MemTableM.put
  rw [put_batch_map]
  rfl

theorem buildMT_size_aux : ∀ (batches : List (List (KeyB × Value)))
    (mt : MemTableM),
    (batches.foldl (fun mt b => mt.put_batch b) mt).approximate_size
      = mt.approximate_size + (batches.map batchSize).sum := by
  intro batches
  induction batches with
  | nil => intro mt; simp
  | cons b batches ih =>
    intro mt
    simp only [List.foldl_cons, List.map_cons, List.sum_cons]
    rw [ih, put_batch_size]
    omega

theorem get_u16_append (v l : List Nat) (h : l.length = 2) :
    get_u16 (v ++ l) = (some (fromBeBytes l), v) := by
  have hlen : (v ++ l).length = v.length + 2 := by simp [h]
  unfold get_u16
  rw [if_neg (by omega)]
  have h2 : (v ++ l).length - 2 = v.length := by omega
  rw [h2, List.drop_left, List.take_left]

theorem get_u32_append (v l : List Nat) (h : l.length = 4) :
    get_u32 (v ++ l) = (some (fromBeBytes l), v) := by
  have hlen : (v ++ l).length = v.length + 4 := by simp [h]
  unfold get_u32
  rw [if_neg (by omega)]
  have h2 : (v ++ l).length - 4 = v.length := by omega
  rw [h2, List.drop_left, List.take_left]

theorem get_u64_append (v l : List Nat) (h : l.length = 8) :
    get_u64 (v ++ l) = (some (fromBeBytes l), v) := by
  have hlen : (v ++ l).length = v.length + 8 := by simp [h]
  unfold get_u64
  rw [if_neg (by omega)]
  have h2 : (v ++ l).length - 8 = v.length := by omega
  rw [h2, List.drop_left, List.take_left]

/-- C10: the `ByteUtil` codec on `Vec<u8>` is a stack, not a queue:
`put_uN` then `get_uN` returns the written value and restores the vector;
after writing `x` then `y`, reads return `y` first and then `x` (reverse
of write order); `get_uN` on a vector shorter than the value width returns
`None` and leaves the vector unchanged. -/
theorem byteutil_stack_roundtrip :
    (∀ (v : List Nat) (x : Nat), x < 2 ^ 16 →
      get_u16 (put_u16 v x) = (some x, v)) ∧
    (∀ (v : List Nat) (x : Nat), x < 2 ^ 32 →
      get_u32 (put_u32 v x) = (some x, v)) ∧
    (∀ (v : List Nat) (x : Nat), x < 2 ^ 64 →
      get_u64 (put_u64 v x) = (some x, v)) ∧
    (∀ (v : List Nat) (x y : Nat), x < 2 ^ 32 → y < 2 ^ 32 →
      get_u32 (put_u32 (put_u32 v x) y) = (some y, put_u32 v x) ∧
      get_u32 (put_u32 v x) = (some x, v)) ∧
    (∀ v : List Nat, v.length < 2 → get_u16 v = (none, v)) ∧
    (∀ v : List Nat, v.length < 4 → get_u32 v = (none, v)) ∧
    (∀ v : List Nat, v.length < 8 → get_u64 v = (none, v)) := by
  have h16 : ∀ (v : List Nat) (x : Nat), x < 2 ^ 16 →
      get_u16 (put_u16 v x) = (some x, v) := by
    intro v x hx
    rw [put_u16, get_u16_append v _ (toBeBytes_length 2 x),
      fromBeBytes_toBeBytes (by norm_num at hx ⊢; exact hx)]
  have h32 : ∀ (v : List Nat) (x : Nat), x < 2 ^ 32 →
      get_u32 (put_u32 v x) = (some x, v) := by
    intro v x hx
    rw [put_u32, get_u32_append v _ (toBeBytes_length 4 x),
      fromBeBytes_toBeBytes (by norm_num at hx ⊢; exact hx)]
  have h64 : ∀ (v : List Nat) (x : Nat), x < 2 ^ 64 →
      get_u64 (put_u64 v x) = (some x, v) := by
    intro v x hx
    rw [put_u64, get_u64_append v _ (toBeBytes_length 8 x),
      fromBeBytes_toBeBytes (by norm_num at hx ⊢; exact hx)]
  refine ⟨h16, h32, h64, ?_, ?_, ?_, ?_⟩
  · intro v x y hx hy
    exact ⟨h32 (put_u32 v x) y hy, h32 v x hx⟩
  · intro v hv
    unfold get_u16
    rw [if_pos hv]
  · intro v hv
    unfold get_u32
    rw [if_pos hv]
  · intro v hv
    unfold get_u64
    rw [if_pos hv]

/-- C10 witness: writing 12345 then 32145 and reading back yields 32145
first, then the vector holding only 12345; a 1-byte vector underflows. -/
theorem byteutil_stack_roundtrip_witness :
    get_u32 (put_u32 (put_u32 [] 12345) 32145) =
      (some 32145, put_u32 [] 12345) ∧
    get_u16 [5] = (none, [5]) :=
  ⟨(byteutil_stack_roundtrip.2.2.2.1 [] 12345 32145 (by norm_num)
      (by norm_num)).1,
   byteutil_stack_roundtrip.2.2.2.2.1 [5] (by norm_num)⟩

/-- C3: `keyCmp` is a strict total order on versioned keys: it is
transitive, total, asymmetric and irreflexive; for one payload the larger
version sorts strictly first, and lexicographically smaller payloads sort
strictly first regardless of versions. -/
theorem keyCmp_strict_total_order :
    (∀ a b c : KeyB, keyLT a b → keyLT b c → keyLT a c) ∧
    (∀ a b : KeyB, keyLT a b ∨ a = b ∨ keyLT b a) ∧
    (∀ a b : KeyB, keyLT a b → ¬ keyLT b a) ∧
    (∀ a : KeyB, ¬ keyLT a a) ∧
    (∀ (p : List Nat) (v1 v2 : Nat), v2 < v1 → keyLT ⟨p, v1⟩ ⟨p, v2⟩) ∧
    (∀ (p1 p2 : List Nat) (v1 v2 : Nat), List.Lex (· < ·) p1 p2 →
      keyLT ⟨p1, v1⟩ ⟨p2, v2⟩) := by
  refine ⟨fun a b c => keyCmp_trans, ?_, ?_, ?_, ?_, ?_⟩
  · intro a b
    rcases h : keyCmp a b with h' | h' | h'
    · exact Or.inl h
    · exact Or.inr (Or.inl (keyCmp_eq_iff.mp h))
    · refine Or.inr (Or.inr ?_)
      show keyCmp b a = Ordering.lt
      rw [keyCmp_swap, h]
      rfl
  · intro a b hab hba
    have h2 := keyCmp_swap a b
    rw [hab] at h2
    rw [hba] at h2
    exact absurd h2 (by decide)
  · intro a h
    unfold keyLT at h
    rw [keyCmp_refl] at h
    exact absurd h (by decide)
  · intro p v1 v2 hv
    have hp : bytesCmp p p = Ordering.eq := bytesCmp_eq_iff.mpr rfl
    show keyCmp ⟨p, v1⟩ ⟨p, v2⟩ = Ordering.lt
    simp only [keyCmp, hp]
    exact Nat.compare_eq_lt.mpr hv
  · intro p1 p2 v1 v2 hlex
    have hp : bytesCmp p1 p2 = Ordering.lt := bytesCmp_lex_iff.mpr hlex
    show keyCmp ⟨p1, v1⟩ ⟨p2, v2⟩ = Ordering.lt
    simp only [keyCmp, hp]

/-- C3 witness: version 5 of payload [1] sorts before version 3, and
payload [1,2] sorts before payload [2] whatever the versions. -/
theorem keyCmp_strict_total_order_witness :
    keyLT ⟨[1], 5⟩ ⟨[1], 3⟩ ∧ keyLT ⟨[1, 2], 0⟩ ⟨[2], 9⟩ :=
  ⟨keyCmp_strict_total_order.2.2.2.2.1 [1] 5 3 (by norm_num),
   keyCmp_strict_total_order.2.2.2.2.2 [1, 2] [2] 0 9
     (List.Lex.rel (by norm_num))⟩

/-- C4: `MemTable::get` is an exact-match lookup on the full
(payload, version) pair: a put is readable back under the identical key,
a put leaves every other exact key unaffected, a fresh memtable answers
nothing, and the same payload under a different version is not found. -/
theorem memtable_get_exact_match :
    (∀ (mt : MemTableM) (k : KeyB) (v : Value), (mt.put k v).get k = some v) ∧
    (∀ (mt : MemTableM) (k k2 : KeyB) (v : Value), k2 ≠ k →
      (mt.put k v).get k2 = mt.get k2) ∧
    (∀ (id : Nat) (k : KeyB), (MemTableM.new id).get k = none) ∧
    (∀ (id : Nat) (p : List Nat) (v1 v2 : Nat) (val : Value), v1 ≠ v2 →
      ((MemTableM.new id).put ⟨p, v1⟩ val).get ⟨p, v2⟩ = none) := by
  refine ⟨?_, ?_, ?_, ?_⟩
  · intro mt k v
    show mapGet (mt.put k v).map k = some v
    rw [put_map]
    exact mapGet_insert_self mt.map k v
  · intro mt k k2 v hne
    show mapGet (mt.put k v).map k2 = mapGet mt.map k2
    rw [put_map]
    exact mapGet_insert_other mt.map k k2 v hne
  · intro id k
    rfl
  · intro id p v1 v2 val hne
    show mapGet ((MemTableM.new id).put ⟨p, v1⟩ val).map ⟨p, v2⟩ = none
    rw [put_map,
      mapGet_insert_other _ _ _ _
        (fun hc => hne (congrArg KeyB.version hc).symm)]
    rfl

/-- C4 witness: after putting ([1], version 2) ↦ [9] in a fresh memtable,
the identical pair reads back [9] and version 1 of the same payload reads
back nothing. -/
theorem memtable_get_exact_match_witness :
    ((MemTableM.new 0).put ⟨[1], 2⟩ [9]).get ⟨[1], 2⟩ = some [9] ∧
    ((MemTableM.new 0).put ⟨[1], 2⟩ [9]).get ⟨[1], 1⟩ = none :=
  ⟨memtable_get_exact_match.1 (MemTableM.new 0) ⟨[1], 2⟩ [9],
   memtable_get_exact_match.2.2.2 0 [1] 2 1 [9] (by norm_num)⟩

/-- C5: putting the identical (payload, version) twice with different
values leaves exactly one map entry for that key, holding the later value;
keys differing only in version remain distinct entries. -/
theorem memtable_put_overwrite :
    ∀ (mt : MemTableM) (k : KeyB) (v1 v2 : Value), keysSorted mt.map →
      (((mt.put k v1).put k v2).map.countP
          (fun e => decide (keyCmp k e.1 = Ordering.eq)) = 1) ∧
      (((mt.put k v1).put k v2).get k = some v2) ∧
      (∀ (p : List Nat) (a b : Nat) (va vb : Value), a ≠ b →
        ((mt.put ⟨p, a⟩ va).put ⟨p, b⟩ vb).get ⟨p, a⟩ = some va ∧
        ((mt.put ⟨p, a⟩ va).put ⟨p, b⟩ vb).get ⟨p, b⟩ = some vb) := by
  intro mt k v1 v2 hs
  refine ⟨?_, ?_, ?_⟩
  · rw [put_map, put_map]
    exact countP_mapInsert _ k v2 (keysSorted_insert hs)
  · show mapGet ((mt.put k v1).put k v2).map k = some v2
    rw [put_map, put_map]
    exact mapGet_insert_self _ k v2
  · intro p a b va vb hab
    have hne : (⟨p, a⟩ : KeyB) ≠ ⟨p, b⟩ :=
      fun hc => hab (congrArg KeyB.version hc)
    constructor
    · show mapGet ((mt.put ⟨p, a⟩ va).put ⟨p, b⟩ vb).map ⟨p, a⟩ = some va
      rw [put_map, put_map, mapGet_insert_other _ _ _ _ hne]
      exact mapGet_insert_self _ _ _
    · show mapGet ((mt.put ⟨p, a⟩ va).put ⟨p, b⟩ vb).map ⟨p, b⟩ = some vb
      rw [put_map, put_map]
      exact mapGet_insert_self _ _ _

/-- C5 witness: overwriting ([1], version 2) leaves the second value, and
versions 0 and 1 of payload [1] coexist as distinct entries. -/
theorem memtable_put_overwrite_witness :
    ((((MemTableM.new 0).put ⟨[1], 2⟩ [7]).put ⟨[1], 2⟩ [9]).map.countP
        (fun e => decide (keyCmp ⟨[1], 2⟩ e.1 = Ordering.eq)) = 1) ∧
    ((((MemTableM.new 0).put ⟨[1], 0⟩ [7]).put ⟨[1], 1⟩ [9]).get ⟨[1], 0⟩ =
      some [7]) := by
  constructor
  · exact (memtable_put_overwrite (MemTableM.new 0) ⟨[1], 2⟩ [7] [9]
      (by simp [MemTableM.new, keysSorted])).1
  · exact ((memtable_put_overwrite (MemTableM.new 0) ⟨[1], 2⟩ [7] [9]
      (by simp [MemTableM.new, keysSorted])).2.2 [1] 0 1 [7] [9]
      (by norm_num)).1

/-- C6: after any sequence of `put_batch` calls, `approximate_size` equals
the sum over all calls of Σ(raw_len(key) + len(value)), where
`raw_len(key)` is the payload length plus 8, independently of the order of
the calls. -/
theorem memtable_approximate_size :
    ∀ (id : Nat) (batches batches2 : List (List (KeyB × Value))),
      ((buildMT id batches).approximate_size =
        (batches.map batchSize).sum) ∧
      (∀ k : KeyB, raw_len k = k.payload.length + 8) ∧
      (batches2.Perm batches →
        (buildMT id batches2).approximate_size =
          (buildMT id batches).approximate_size) := by
  intro id batches batches2
  refine ⟨?_, fun k => rfl, ?_⟩
  · unfold buildMT
    rw [buildMT_size_aux]
    simp [MemTableM.new]
  · intro hperm
    unfold buildMT
    rw [buildMT_size_aux, buildMT_size_aux, (hperm.map batchSize).sum_eq]

/-- C6 witness: two singleton batches give total size
(2+8+1) + (1+8+2) = 22 in either order. -/
theorem memtable_approximate_size_witness :
    ((buildMT 0 [[(⟨[1, 2], 3⟩, [9])], [(⟨[5], 0⟩, [7, 8])]]).approximate_size
      = 22) ∧
    ((buildMT 0 [[(⟨[5], 0⟩, [7, 8])], [(⟨[1, 2], 3⟩, [9])]]).approximate_size
      = (buildMT 0 [[(⟨[1, 2], 3⟩, [9])],
          [(⟨[5], 0⟩, [7, 8])]]).approximate_size) := by
  constructor
  · rw [(memtable_approximate_size 0
      [[(⟨[1, 2], 3⟩, [9])], [(⟨[5], 0⟩, [7, 8])]] []).1]
    decide
  · exact (memtable_approximate_size 0
      [[(⟨[1, 2], 3⟩, [9])], [(⟨[5], 0⟩, [7, 8])]]
      [[(⟨[5], 0⟩, [7, 8])], [(⟨[1, 2], 3⟩, [9])]]).2.2
      (List.Perm.swap _ _ _)

/-- C1 (code-bug evidence): `Clone for Bytes` copies the raw pointer and
sets `cap` to 0, so a clone never frees anything; dropping the original
owner deallocates the backing allocation while an undropped clone still
points into it (use after free), contradicting the claimed
freed-exactly-once-after-last-owner discipline. -/
theorem bytes_clone_use_after_free :
    (∀ (h : Heap) (b : BytesR),
      b.clone.ptr = b.ptr ∧ b.clone.cap = 0 ∧ dropBytes h b.clone = h) ∧
    ((dropBytes ⟨[7], []⟩ ⟨7, 3, 3⟩).freed = [7] ∧
      ¬ canRead (dropBytes ⟨[7], []⟩ ⟨7, 3, 3⟩) (BytesR.clone ⟨7, 3, 3⟩)) := by
  refine ⟨fun h b => ⟨rfl, rfl, by simp [dropBytes, BytesR.clone]⟩, ?_, ?_⟩
  · simp [dropBytes]
  · simp [canRead, dropBytes, BytesR.clone]

/-- C2 (code-bug evidence): `MemTable::put_batch` returns successfully
without ever appending to the attached Wal (the source's Wal branch is the
no-op `// TODO: add wal support.`), while the entries do become visible in
the map — writes are acknowledged memory-only. -/
theorem put_batch_skips_wal :
    (∀ (mt : MemTableM) (data : List (KeyB × Value)),
      (mt.put_batch data).wal = mt.wal) ∧
    ((MemTableM.mk [] (some ⟨[]⟩) 0 0).put_batch
        [(⟨[107], 0⟩, [118])]).wal = some ⟨[]⟩ ∧
    ((MemTableM.mk [] (some ⟨[]⟩) 0 0).put_batch
        [(⟨[107], 0⟩, [118])]).get ⟨[107], 0⟩ = some [118] := by
  refine ⟨put_batch_wal, by decide, by decide⟩

/-- C8: creating a Wal (and hence a MemTable with one) at an occupied path
fails with AlreadyExists and leaves the file system unchanged; at a fresh
path it creates a new empty log file and the memtable starts empty. -/
theorem new_with_wal_spec :
    ∀ (fs : FS) (id path : Nat),
      ((fs.lookup path).isSome →
        new_with_wal fs id path = (Except.error IoError.alreadyExists, fs)) ∧
      (fs.lookup path = none →
        new_with_wal fs id path =
          (Except.ok ⟨[], some ⟨[]⟩, id, 0⟩, (path, []) :: fs) ∧
        (MemTableM.mk [] (some ⟨[]⟩) id 0).is_empty = true ∧
        ((path, []) :: fs).lookup path = some []) := by
  intro fs id path
  constructor
  · intro h
    rcases hl : fs.lookup path with _ | v
    · rw [hl] at h
      simp at h
    · simp [new_with_wal, walNew, hl]
  · intro hl
    refine ⟨by simp [new_with_wal, walNew, hl], rfl, by simp⟩

/-- C8 witness: path 1 is occupied, so creation fails and the file system
is untouched; path 2 is fresh, so an empty log and empty memtable result. -/
theorem new_with_wal_witness :
    new_with_wal [(1, [5])] 0 1 =
      (Except.error IoError.alreadyExists, [(1, [5])]) ∧
    new_with_wal [] 0 2 = (Except.ok ⟨[], some ⟨[]⟩, 0, 0⟩, [(2, [])]) :=
  ⟨(new_with_wal_spec [(1, [5])] 0 1).1 (by decide),
   ((new_with_wal_spec [] 0 2).2 (by decide)).1⟩

/-- C9 counterexample: a zero-length read at offset 5 of a 3-byte file
succeeds with the empty byte string even though offset + len exceeds the
file length, so "every range exceeding the file's length fails" is false
as stated. -/
theorem fileobject_read_zero_beyond_eof :
    FileObject.read ⟨[1, 2, 3]⟩ 5 0 = Except.ok [] ∧
    ¬ (5 + 0 ≤ (FileObject.mk [1, 2, 3]).data.length) := by
  constructor
  · rfl
  · decide

/-- C9 amended: for offset + len ≤ file size, `read` returns exactly the
`len` bytes at that range; for every range with `len ≥ 1` exceeding the
file length it fails with UnexpectedEof (never a short or padded result);
a zero-length read succeeds with the empty result at any offset. -/
theorem fileobject_read_bounds :
    ∀ (f : FileObject) (offset len : Nat),
      (offset + len ≤ f.data.length →
        f.read offset len = Except.ok ((f.data.drop offset).take len) ∧
        ((f.data.drop offset).take len).length = len) ∧
      (0 < len → f.data.length < offset + len →
        f.read offset len = Except.error IoError.unexpectedEof) ∧
      (f.read offset 0 = Except.ok []) := by
  intro f offset len
  refine ⟨?_, ?_, ?_⟩
  · intro h
    constructor
    · by_cases h0 : len = 0
      · subst h0
        rfl
      · unfold FileObject.read read_exact_at
        rw [if_neg h0, if_pos h]
    · rw [List.length_take, List.length_drop]
      omega
  · intro hpos hlt
    unfold FileObject.read read_exact_at
    rw [if_neg (by omega), if_neg (by omega)]
  · rfl

/-- C9 witness: reading 2 bytes at offset 1 of [1,2,3] yields [2,3];
reading 9 bytes at offset 2 fails. -/
theorem fileobject_read_bounds_witness :
    FileObject.read ⟨[1, 2, 3]⟩ 1 2 = Except.ok [2, 3] ∧
    FileObject.read ⟨[1, 2, 3]⟩ 2 9 = Except.error IoError.unexpectedEof := by
  constructor
  · have h := ((fileobject_read_bounds ⟨[1, 2, 3]⟩ 1 2).1 (by decide)).1
    simpa using h
  · exact (fileobject_read_bounds ⟨[1, 2, 3]⟩ 2 9).2.1 (by decide) (by decide)

/-- C7: recovery reads the log as a sequence of checksummed batches and
returns exactly the triples of every batch up to (not including) the first
batch whose trailing CRC32 does not match its body or which is truncated;
everything from that batch on is discarded, and no error is raised (the
result type is a plain list of triples). -/
theorem wal_recover_prefix :
    ∀ (Bs : List (List Entry)), (∀ B ∈ Bs, wfBatch B) →
      (recover (encodeLog Bs) = Bs.flatten) ∧
      (∀ (B : List Entry) (c : Nat) (tail : List Nat), wfBatch B →
        c < 2 ^ 32 → c ≠ crc32 (encodeBody B) →
        recover (encodeLog Bs ++
          (toBeBytes 4 (encodeBody B).length ++ encodeBody B ++
            toBeBytes 4 c ++ tail)) = Bs.flatten) ∧
      (∀ (B : List Entry) (j : Nat), wfBatch B → j < (encodeBatch B).length →
        recover (encodeLog Bs ++ (encodeBatch B).take j) = Bs.flatten) := by
  intro Bs hwf
  refine ⟨?_, ?_, ?_⟩
  · have h := recover_log_append Bs [] hwf
    rw [List.append_nil] at h
    rw [h, show recover [] = [] from rfl, List.append_nil]
  · intro B c tail hB hc hne
    rw [recover_log_append Bs _ hwf,
      show recover (toBeBytes 4 (encodeBody B).length ++ encodeBody B ++
        toBeBytes 4 c ++ tail) = [] from recoverF_corrupt B c tail hB hc hne _,
      List.append_nil]
  · intro B j hB hj
    rw [recover_log_append Bs _ hwf,
      show recover ((encodeBatch B).take j) = [] from
        recoverF_truncated B j hB hj _,
      List.append_nil]

set_option maxRecDepth 100000 in
/-- C7 witness: one good batch recovers to its entry; appending a batch
whose stored checksum is 0 (not the body's CRC32) plus further garbage
still recovers exactly the good prefix. -/
theorem wal_recover_prefix_witness :
    recover (encodeLog [[⟨[1], 0, [2]⟩]]) = [⟨[1], 0, [2]⟩] ∧
    recover (encodeLog [[⟨[1], 0, [2]⟩]] ++
      (toBeBytes 4 (encodeBody [⟨[3], 1, [4]⟩]).length ++
        encodeBody [⟨[3], 1, [4]⟩] ++ toBeBytes 4 0 ++ [9])) =
      [⟨[1], 0, [2]⟩] := by
  have h := wal_recover_prefix [[⟨[1], 0, [2]⟩]] (by decide)
  exact ⟨h.1, h.2.1 [⟨[3], 1, [4]⟩] 0 [9] (by decide) (by norm_num)
    (by decide)⟩

end LsmKV
